import Mathlib

/-!
Verification development for the `py_source_parser` module of mkdocs-gallery.

The module is embedded shallowly: the in-file configuration scanner
(`INFILE_CONFIG_PATTERN` applied via `re.finditer` / `re.subn`), the
section-delimiter scanner of `split_code_and_text_blocks`, the text-block
cleanup (`re.sub('^#', ...)`, `textwrap.dedent`, `str.lstrip`) and the
line-number bookkeeping are all translated to executable Lean functions on
character lists.  The two regular expressions are fixed in the source, so
each is hand-compiled to a deterministic matcher that realises the
backtracking semantics of Python's `re` engine for that concrete pattern
(greedy repetition with single-character classes only ever needs maximal
munch plus the explicit fallbacks encoded below).

`ast.parse` / `ast.get_docstring` / the tokenizer are Python-runtime black
boxes; `_get_docstring_and_rest` is therefore embedded as two constructors,
one per control path: the syntax-error fallback (computed entirely by the
module) and the successfully-parsed path, parameterised over the raw
docstring literal, the cleaned docstring and the token end row supplied by
those black boxes.  `ast.literal_eval` is likewise a parameter
`d : String → Option α` of `extract_file_config`.
-/

namespace MkdocsGallery

/-- Python's `\s` character class (ASCII range), used by `re` and by
`str.strip` / `str.lstrip`. -/
def isPyWs (c : Char) : Bool :=
  c == ' ' || c == '\t' || c == '\n' || c == '\r' || c == '\x0b' || c == '\x0c'

/-- The character class `[ \t]` of the directive pattern. -/
def isHT (c : Char) : Bool :=
  c == ' ' || c == '\t'

/-- The character class `[A-Za-z0-9_]` of the directive-name group. -/
def isWordChar (c : Char) : Bool :=
  c.isAlpha || c.isDigit || c == '_'

/-- Truthiness of Python's `s.strip()`: `True` iff `s` contains a
character outside `\s`. -/
def pyTruthy (s : String) : Bool :=
  s.toList.any (fun c => !(isPyWs c))

/-- Python's `s.count('\n')`. -/
def countNl (s : String) : Nat :=
  s.toList.count '\n'

/-- Strip a literal prefix from a character list, or fail. -/
def dropLitPrefix : List Char → List Char → Option (List Char)
  | [], s => some s
  | _ :: _, [] => none
  | p :: ps, c :: cs => if p == c then dropLitPrefix ps cs else none

/-- Tail of `INFILE_CONFIG_PATTERN` after the optional value group:
`[ \t]*\n?`.  Returns the matched name, the optional value, the suffix
after the match and whether the match consumed a newline (so that the
suffix starts at the beginning of a source line). -/
def matchConfigFinish (nm : List Char) (v : Option String) (after : List Char) :
    Option (String × Option String × List Char × Bool) :=
  match after.dropWhile isHT with
  | '\n' :: u => some (nm.asString, v, u, true)
  | t => some (nm.asString, v, t, false)

/-- Deterministic matcher for
`^[ \t]*#\s*mkdocs_gallery_([A-Za-z0-9_]+)(\s*=\s*(.+))?[ \t]*\n?`
at a position known to be a line start.  Every greedy repetition in the
pattern is followed by a token disjoint from its character class except
for `\s*` before `(.+)`, whose single backtracking step (give characters
back until `.` can match, i.e. until a non-newline character is at hand)
is encoded in the `[]` case below. -/
def matchConfigAt (cs : List Char) : Option (String × Option String × List Char × Bool) :=
  match cs.dropWhile isHT with
  | '#' :: s2 =>
    match dropLitPrefix ("mkdocs_gallery_".toList) (s2.dropWhile isPyWs) with
    | none => none
    | some s4 =>
      let nm := s4.takeWhile isWordChar
      if nm.isEmpty then none
      else
        let s5 := s4.dropWhile isWordChar
        match s5.dropWhile isPyWs with
        | '=' :: s7 =>
          match s7.dropWhile isPyWs with
          | [] =>
            -- everything after `=` is whitespace: `.+` can only match the
            -- last non-newline whitespace character, if any
            match (s7.takeWhile isPyWs).reverse.dropWhile (fun c => c == '\n') with
            | [] => matchConfigFinish nm none s5
            | c :: _ =>
              matchConfigFinish nm (some (String.mk [c]))
                ((s7.takeWhile isPyWs).reverse.takeWhile (fun c => c == '\n')).reverse
          | r =>
            matchConfigFinish nm (some (r.takeWhile (fun c => !(c == '\n'))).asString)
              (r.dropWhile (fun c => !(c == '\n')))
        | _ => matchConfigFinish nm none s5
  | _ => none

/-- One left-to-right scan of a text with `INFILE_CONFIG_PATTERN`,
realising both `re.finditer` (first component: the `(name, value?)` of
each match, in order) and `re.subn` with an empty replacement (second
component: the unmatched characters, in order).  The scan advances one
character at a time; a match is attempted exactly at line starts, as the
`^` anchor dictates in multiline mode, and scanning resumes at the end of
each match.  `fuel` only serves termination; callers pass the length of
the list, which each step strictly dominates. -/
def configWalk : Nat → List Char → Bool → List (String × Option String) × List Char
  | 0, cs, _ => ([], cs)
  | _ + 1, [], _ => ([], [])
  | fuel + 1, c :: rest, false =>
    ((configWalk fuel rest (c == '\n')).1, c :: (configWalk fuel rest (c == '\n')).2)
  | fuel + 1, c :: rest, true =>
    match matchConfigAt (c :: rest) with
    | some (n, v, after, nl) =>
      ((n, v) :: (configWalk fuel after nl).1, (configWalk fuel after nl).2)
    | none =>
      ((configWalk fuel rest (c == '\n')).1, c :: (configWalk fuel rest (c == '\n')).2)

/-- The `(name, value?)` pairs of the matches of `INFILE_CONFIG_PATTERN`
in `s`, in scanning order (the iteration underlying both
`extract_file_config` and `remove_config_comments`). -/
def findConfigDirectives (s : String) : List (String × Option String) :=
  (configWalk s.toList.length s.toList true).1

/-- `remove_config_comments`: `re.subn(INFILE_CONFIG_PATTERN, '', code_block)`. -/
def remove_config_comments (s : String) : String :=
  ((configWalk s.toList.length s.toList true).2).asString

/-- Python `dict` assignment `conf[n] = x`: replace the value in place if
the key is present, else append the binding. -/
def dictSet {α : Type} (n : String) (x : α) : List (String × α) → List (String × α)
  | [] => [(n, x)]
  | (m, y) :: rest => if m = n then (n, x) :: rest else (m, y) :: dictSet n x rest

/-- The loop body of `extract_file_config` over the match list: flag-only
matches (no value group) are skipped; a value that fails to decode adds a
`(name, value)` warning and nothing else; a decoded value is stored with
dict-update semantics. -/
def extractConfigGo {α : Type} (d : String → Option α) :
    List (String × Option String) → List (String × α) → List (String × String) →
    List (String × α) × List (String × String)
  | [], conf, warns => (conf, warns)
  | (_, none) :: ms, conf, warns => extractConfigGo d ms conf warns
  | (n, some v) :: ms, conf, warns =>
    match d v with
    | none => extractConfigGo d ms conf (warns ++ [(n, v)])
    | some x => extractConfigGo d ms (dictSet n x conf) warns

/-- `extract_file_config`, with `ast.literal_eval` abstracted as
`d : String → Option α` (`none` models `SyntaxError`/`ValueError`).
Returns the config mapping and the emitted warnings. -/
def extract_file_config {α : Type} (d : String → Option α) (content : String) :
    List (String × α) × List (String × String) :=
  extractConfigGo d (findConfigDirectives content) [] []

/-- A stand-in concrete literal decoder (decimal natural numbers only),
used to instantiate `extract_file_config` on concrete inputs. -/
def decodeNatLit (s : String) : Option Nat :=
  if (!s.toList.isEmpty) && s.toList.all Char.isDigit then
    some (s.toList.foldl (fun a c => a * 10 + (c.toNat - 48)) 0)
  else none

/-- The `(?:^#.*\s?)*` group of the block-splitting pattern: consume
consecutive lines starting with `#`, each with its newline; returns the
captured characters, the suffix, and whether the suffix is at a line
start. -/
def grabComments : Nat → List Char → List Char × List Char × Bool
  | 0, cs => ([], cs, true)
  | fuel + 1, cs =>
    match cs with
    | '#' :: _ =>
      match cs.dropWhile (fun c => !(c == '\n')) with
      | '\n' :: t =>
        (cs.takeWhile (fun c => !(c == '\n')) ++ '\n' :: (grabComments fuel t).1,
         (grabComments fuel t).2.1, (grabComments fuel t).2.2)
      | _ => (cs.takeWhile (fun c => !(c == '\n')), [], false)
    | _ => ([], cs, true)

/-- Deterministic matcher for the block-splitting pattern
`(?P<header_line>^#{20,}.*|^# ?%%.*)\s(?P<text_content>(?:^#.*\s?)*)` at a
line start.  The `\s` after the header line is normally the newline ending
it; when the header line ends the text, `.*` backtracks to the last
whitespace character of the line (no match if there is none). -/
def matchHeaderAt (cs : List Char) : Option (String × List Char × Bool) :=
  let k := (cs.takeWhile (fun c => c == '#')).length
  let hdr : Option Nat :=
    if 20 ≤ k then some k
    else if cs.take 3 = "#%%".toList then some 3
    else if cs.take 4 = "# %%".toList then some 4
    else none
  match hdr with
  | none => none
  | some h =>
    let afterH := cs.drop h
    match afterH.dropWhile (fun c => !(c == '\n')) with
    | '\n' :: t2 =>
      some ((grabComments t2.length t2).1.asString, (grabComments t2.length t2).2.1,
            (grabComments t2.length t2).2.2)
    | _ =>
      let line := afterH.takeWhile (fun c => !(c == '\n'))
      if line.any isPyWs then
        some ("", (line.reverse.takeWhile (fun c => !(isPyWs c))).reverse, false)
      else none

/-- `re.finditer` of the block-splitting pattern over the post-docstring
text: returns, for each match in order, the gap since the previous match
(the candidate code block, `rest_of_content[pos_so_far:match.start()]`)
and the `text_content` capture, together with the trailing remainder
(`rest_of_content[pos_so_far:]` after the last match).  `acc` is the
current gap, reversed. -/
def headerWalk : Nat → List Char → Bool → List Char → List (String × String) × String
  | 0, cs, _, acc => ([], (acc.reverse ++ cs).asString)
  | _ + 1, [], _, acc => ([], acc.reverse.asString)
  | fuel + 1, c :: rest, ls, acc =>
    if ls then
      match matchHeaderAt (c :: rest) with
      | some (tc, after, nl) =>
        ((acc.reverse.asString, tc) :: (headerWalk fuel after nl []).1,
         (headerWalk fuel after nl []).2)
      | none => ((headerWalk fuel rest (c == '\n') (c :: acc)).1,
                 (headerWalk fuel rest (c == '\n') (c :: acc)).2)
    else ((headerWalk fuel rest (c == '\n') (c :: acc)).1,
          (headerWalk fuel rest (c == '\n') (c :: acc)).2)

/-- Scan the post-docstring text for section-delimiter matches. -/
def scanHeaders (s : String) : List (String × String) × String :=
  headerWalk s.toList.length s.toList true []

/-- Python's `s.split('\n')` on character lists. -/
def splitNl : List Char → List (List Char)
  | [] => [[]]
  | c :: rest =>
    if c = '\n' then [] :: splitNl rest
    else
      match splitNl rest with
      | [] => [[c]]
      | l :: ls => (c :: l) :: ls

/-- Python's `'\n'.join` on character lists. -/
def joinNl : List (List Char) → List Char
  | [] => []
  | [l] => l
  | l :: ls => l ++ '\n' :: joinNl ls

/-- `re.sub('^#', '', text, flags=re.M)`: remove one leading `#` from
every line. -/
def subLeadingHash (s : String) : String :=
  (joinNl ((splitNl s.toList).map (fun l =>
    match l with
    | '#' :: rest => rest
    | l => l))).asString

/-- Character-wise longest common prefix (the margin-merging step of
`textwrap.dedent`). -/
def commonPrefix : List Char → List Char → List Char
  | a :: as, b :: bs => if a = b then a :: commonPrefix as bs else []
  | _, _ => []

/-- `textwrap.dedent`: lines consisting solely of `[ \t]` are emptied;
the margin is the common `[ \t]` prefix of the lines having another
character; the margin, when nonempty, is removed from every line starting
with it. -/
def dedent (s : String) : String :=
  let lines := (splitNl s.toList).map (fun l => if (!l.isEmpty) && l.all isHT then [] else l)
  let indents := lines.filterMap (fun l =>
    if l.any (fun c => !(isHT c)) then some (l.takeWhile isHT) else none)
  let margin := match indents with
    | [] => ([] : List Char)
    | i :: is => is.foldl commonPrefix i
  if margin.isEmpty then (joinNl lines).asString
  else (joinNl (lines.map (fun l =>
    if margin.isPrefixOf l then l.drop margin.length else l))).asString

/-- Python's `s.lstrip()`. -/
def lstripStr (s : String) : String :=
  (s.toList.dropWhile isPyWs).asString

/-- The text-block cleanup of `split_code_and_text_blocks`:
`dedent(re.sub(sub_pat, '', text_content)).lstrip()`. -/
def cleanTextContent (tc : String) : String :=
  lstripStr (dedent (subLeadingHash tc))

/-- One element of the returned block list: a `(label, content, lineno)`
tuple with label `"text"` or `"code"`. -/
structure Block where
  label : String
  content : String
  lineno : Nat
deriving DecidableEq

/-- The `for match in re.finditer(...)` loop of
`split_code_and_text_blocks` plus the trailing-remainder step, folded
over the scanned segments: the gap before each match is a candidate code
block at the running line number, the cleaned `text_content` a candidate
text block one line further (the consumed header line), and the line
counter advances by the newline counts of the gap and of the raw
`text_content`; candidates whose content is whitespace-only are dropped. -/
def buildBlocks : List (String × String) → String → Nat → List Block
  | [], rem, lineno => if pyTruthy rem then [⟨"code", rem, lineno⟩] else []
  | (gap, tc) :: rest, rem, lineno =>
    (if pyTruthy gap then [⟨"code", gap, lineno⟩] else []) ++
    ((if pyTruthy (cleanTextContent tc) then
        [⟨"text", cleanTextContent tc, lineno + countNl gap + 1⟩] else []) ++
      buildBlocks rest rem (lineno + countNl gap + 1 + countNl tc))

/-- The result triple of `_get_docstring_and_rest` that
`split_code_and_text_blocks` consumes (the returned ast node plays no
role in the block structure). -/
structure DocstringAndRest where
  docstring : String
  rest : String
  lineno : Nat
deriving DecidableEq

/-- The module-level fallback docstring for unparsable files. -/
def SYNTAX_ERROR_DOCSTRING : String :=
  "\nSyntaxError\n===========\n\nExample script with invalid Python syntax\n"

/-- `_get_docstring_and_rest` on the `node is None` path: `ast.parse`
raised, so the placeholder docstring is returned with the whole
(normalised) content as the rest, at line number 1. -/
def getDocstringAndRest_parseFailure (content : String) : DocstringAndRest :=
  ⟨SYNTAX_ERROR_DOCSTRING, content, 1⟩

/-- `_get_docstring_and_rest` on the successfully-parsed path,
parameterised over the outputs of the Python black boxes: `rawS` is
`node.body[0].value.s` (the raw docstring literal), `cleaned` is
`ast.get_docstring(node)`, and `tokenEndRow` is the end row of the first
string token (`none` when the tokenizer finds no string, in which case
the code defaults the line to 0).  The code re-prepends a newline when
the raw literal starts with one, recomputes the rest as the lines after
`lineno`, and returns `lineno + 1`. -/
def getDocstringAndRest_parsed (rawS cleaned : String) (tokenEndRow : Option Nat)
    (content : String) : DocstringAndRest :=
  let docstring := match rawS.toList with
    | '\n' :: _ => "\n" ++ cleaned
    | _ => cleaned
  let lineno := tokenEndRow.getD 0
  ⟨docstring, (joinNl ((splitNl content.toList).drop lineno)).asString, lineno + 1⟩

/-- The block list built by `split_code_and_text_blocks`: the docstring
as a text block at line 1, then the scanned segments of the rest. -/
def split_blocks (dr : DocstringAndRest) : List Block :=
  ⟨"text", dr.docstring, 1⟩ ::
    buildBlocks (scanHeaders dr.rest).1 (scanHeaders dr.rest).2 dr.lineno

/-- `split_code_and_text_blocks`: the file config extracted from the
post-docstring text, and the block list. -/
def split_code_and_text_blocks {α : Type} (d : String → Option α) (dr : DocstringAndRest) :
    (List (String × α) × List (String × String)) × List Block :=
  (extract_file_config d dr.rest, split_blocks dr)

/-- The ordering on blocks that the line-number claims are about. -/
def blkLe (a b : Block) : Prop :=
  a.lineno ≤ b.lineno

/-- Rebuilding a string from its character list is the identity. -/
theorem toList_asString_self (s : String) : s.toList.asString = s := by
  cases s
  rfl

/-- If a scan of `INFILE_CONFIG_PATTERN` finds no match, the subtraction
pass keeps the text unchanged. -/
theorem configWalk_matches_nil (fuel : Nat) :
    ∀ (cs : List Char) (ls : Bool),
      (configWalk fuel cs ls).1 = [] → (configWalk fuel cs ls).2 = cs := by
  induction fuel with
  | zero => intro cs ls _; rfl
  | succ fuel ih =>
    intro cs ls h
    match cs, ls with
    | [], _ => rfl
    | c :: rest, false =>
      exact congrArg (fun t => c :: t) (ih rest (c == '\n') h)
    | c :: rest, true =>
      simp only [configWalk] at h ⊢
      cases hm : matchConfigAt (c :: rest) with
      | none =>
        rw [hm] at h
        exact congrArg (fun t => c :: t) (ih rest (c == '\n') h)
      | some p =>
        obtain ⟨n, v, after, nl⟩ := p
        rw [hm] at h
        exact absurd h (List.cons_ne_nil _ _)

/-- Membership in a dict after an assignment comes from the assignment or
from the dict before it. -/
theorem dictSet_mem {α : Type} (n m : String) (x y : α) :
    ∀ conf : List (String × α),
      (n, x) ∈ dictSet m y conf → (n = m ∧ x = y) ∨ (n, x) ∈ conf := by
  intro conf
  induction conf with
  | nil =>
    intro h
    simp only [dictSet, List.mem_singleton, Prod.mk.injEq] at h
    exact Or.inl h
  | cons p rest ih =>
    obtain ⟨k, z⟩ := p
    simp only [dictSet]
    by_cases hk : k = m
    · rw [if_pos hk]
      intro h
      rcases List.mem_cons.mp h with h1 | h2
      · simp only [Prod.mk.injEq] at h1
        exact Or.inl h1
      · exact Or.inr (List.mem_cons_of_mem _ h2)
    · rw [if_neg hk]
      intro h
      rcases List.mem_cons.mp h with h1 | h2
      · exact Or.inr (h1 ▸ List.mem_cons_self _ _)
      · rcases ih h2 with h3 | h4
        · exact Or.inl h3
        · exact Or.inr (List.mem_cons_of_mem _ h4)

/-- Every entry of the config mapping built by the `extract_file_config`
loop comes from the starting dict or from a match carrying a value. -/
theorem extractConfigGo_mem {α : Type} (d : String → Option α) :
    ∀ (ms : List (String × Option String)) (conf : List (String × α))
      (warns : List (String × String)) (n : String) (x : α),
      (n, x) ∈ (extractConfigGo d ms conf warns).1 →
      (n, x) ∈ conf ∨ ∃ v : String, (n, some v) ∈ ms := by
  intro ms
  induction ms with
  | nil => intro conf warns n x h; exact Or.inl h
  | cons m ms ih =>
    intro conf warns n x h
    obtain ⟨k, ov⟩ := m
    cases ov with
    | none =>
      simp only [extractConfigGo] at h
      rcases ih conf warns n x h with h1 | ⟨v, hv⟩
      · exact Or.inl h1
      · exact Or.inr ⟨v, List.mem_cons_of_mem _ hv⟩
    | some v =>
      cases hd : d v with
      | none =>
        simp only [extractConfigGo, hd] at h
        rcases ih conf _ n x h with h1 | ⟨w, hw⟩
        · exact Or.inl h1
        · exact Or.inr ⟨w, List.mem_cons_of_mem _ hw⟩
      | some y =>
        simp only [extractConfigGo, hd] at h
        rcases ih _ warns n x h with h1 | ⟨w, hw⟩
        · rcases dictSet_mem n k x y conf h1 with ⟨h2, _⟩ | h3
          · exact Or.inr ⟨v, h2 ▸ List.mem_cons_self _ _⟩
          · exact Or.inl h3
        · exact Or.inr ⟨w, List.mem_cons_of_mem _ hw⟩

/-- Every block emitted by the splitting loop passed its
`if content.strip()` guard. -/
theorem buildBlocks_truthy :
    ∀ (segs : List (String × String)) (rem : String) (l : Nat) (b : Block),
      b ∈ buildBlocks segs rem l → pyTruthy b.content = true := by
  intro segs
  induction segs with
  | nil =>
    intro rem l b h
    simp only [buildBlocks] at h
    by_cases hr : pyTruthy rem
    · rw [if_pos hr] at h
      simp only [List.mem_singleton] at h
      subst h
      exact hr
    · rw [if_neg hr] at h
      simp at h
  | cons seg rest ih =>
    intro rem l b h
    obtain ⟨gap, tc⟩ := seg
    simp only [buildBlocks, List.mem_append] at h
    rcases h with h1 | h2 | h3
    · by_cases hg : pyTruthy gap
      · rw [if_pos hg] at h1
        simp only [List.mem_singleton] at h1
        subst h1
        exact hg
      · rw [if_neg hg] at h1
        simp at h1
    · by_cases ht : pyTruthy (cleanTextContent tc)
      · rw [if_pos ht] at h2
        simp only [List.mem_singleton] at h2
        subst h2
        exact ht
      · rw [if_neg ht] at h2
        simp at h2
    · exact ih _ _ _ h3

/-- The line number of every block emitted by the splitting loop is at
least the line counter the loop started from. -/
theorem buildBlocks_le :
    ∀ (segs : List (String × String)) (rem : String) (l : Nat) (b : Block),
      b ∈ buildBlocks segs rem l → l ≤ b.lineno := by
  intro segs
  induction segs with
  | nil =>
    intro rem l b h
    simp only [buildBlocks] at h
    by_cases hr : pyTruthy rem
    · rw [if_pos hr] at h
      simp only [List.mem_singleton] at h
      subst h
      exact le_refl l
    · rw [if_neg hr] at h
      simp at h
  | cons seg rest ih =>
    intro rem l b h
    obtain ⟨gap, tc⟩ := seg
    simp only [buildBlocks, List.mem_append] at h
    rcases h with h1 | h2 | h3
    · by_cases hg : pyTruthy gap
      · rw [if_pos hg] at h1
        simp only [List.mem_singleton] at h1
        subst h1
        exact le_refl l
      · rw [if_neg hg] at h1
        simp at h1
    · by_cases ht : pyTruthy (cleanTextContent tc)
      · rw [if_pos ht] at h2
        simp only [List.mem_singleton] at h2
        subst h2
        show l ≤ l + countNl gap + 1
        omega
      · rw [if_neg ht] at h2
        simp at h2
    · have := ih rem (l + countNl gap + 1 + countNl tc) b h3
      omega

/-- The blocks emitted by the splitting loop carry non-decreasing line
numbers. -/
theorem buildBlocks_chain :
    ∀ (segs : List (String × String)) (rem : String) (l : Nat),
      List.Chain' blkLe (buildBlocks segs rem l) := by
  intro segs
  induction segs with
  | nil =>
    intro rem l
    simp only [buildBlocks]
    by_cases hr : pyTruthy rem
    · rw [if_pos hr]
      exact List.chain'_singleton _
    · rw [if_neg hr]
      exact List.chain'_nil
  | cons seg rest ih =>
    intro rem l
    obtain ⟨gap, tc⟩ := seg
    simp only [buildBlocks]
    have hC : List.Chain' blkLe
        (buildBlocks rest rem (l + countNl gap + 1 + countNl tc)) := ih rem _
    have hT : List.Chain' blkLe
        ((if pyTruthy (cleanTextContent tc) then
            [⟨"text", cleanTextContent tc, l + countNl gap + 1⟩] else []) ++
          buildBlocks rest rem (l + countNl gap + 1 + countNl tc)) := by
      by_cases ht : pyTruthy (cleanTextContent tc)
      · rw [if_pos ht]
        refine hC.cons' ?_
        intro y hy
        have hm := buildBlocks_le rest rem _ y (List.mem_of_mem_head? hy)
        show l + countNl gap + 1 ≤ y.lineno
        omega
      · rw [if_neg ht]
        simpa using hC
    have hTb : ∀ b ∈ (if pyTruthy (cleanTextContent tc) then
            [(⟨"text", cleanTextContent tc, l + countNl gap + 1⟩ : Block)] else []) ++
          buildBlocks rest rem (l + countNl gap + 1 + countNl tc), l ≤ b.lineno := by
      intro b hb
      rcases List.mem_append.mp hb with h1 | h2
      · by_cases ht : pyTruthy (cleanTextContent tc)
        · rw [if_pos ht] at h1
          simp only [List.mem_singleton] at h1
          subst h1
          show l ≤ l + countNl gap + 1
          omega
        · rw [if_neg ht] at h1
          simp at h1
      · have := buildBlocks_le rest rem _ b h2
        omega
    by_cases hg : pyTruthy gap
    · rw [if_pos hg]
      refine hT.cons' ?_
      intro y hy
      exact hTb y (List.mem_of_mem_head? hy)
    · rw [if_neg hg]
      simpa using hT

/-- A literal prefix stripped successfully decomposes the text. -/
theorem dropLitPrefix_eq : ∀ (lit s s' : List Char),
    dropLitPrefix lit s = some s' → s = lit ++ s' := by
  intro lit
  induction lit with
  | nil =>
    intro s s' h
    simp only [dropLitPrefix, Option.some.injEq] at h
    rw [h]
    rfl
  | cons p ps ih =>
    intro s s' h
    cases s with
    | nil => simp [dropLitPrefix] at h
    | cons c cs =>
      simp only [dropLitPrefix] at h
      by_cases hpc : (p == c) = true
      · rw [if_pos hpc] at h
        obtain rfl : p = c := eq_of_beq hpc
        rw [List.cons_append, ih cs s' h]
      · rw [if_neg hpc] at h
        exact Option.noConfusion h

/-- Stripping a literal prefix from a text that extends it. -/
theorem dropLitPrefix_self_append : ∀ (lit X : List Char),
    dropLitPrefix lit (lit ++ X) = some X := by
  intro lit X
  induction lit with
  | nil => rfl
  | cons p ps ih => simp [dropLitPrefix, ih]

/-- Every element kept by `takeWhile` satisfies the predicate. -/
theorem mem_takeWhile_true (p : Char → Bool) :
    ∀ (l : List Char) (c : Char), c ∈ l.takeWhile p → p c = true := by
  intro l
  induction l with
  | nil => intro c h; simp [List.takeWhile_nil] at h
  | cons x xs ih =>
    intro c h
    rw [List.takeWhile_cons] at h
    by_cases hx : p x = true
    · rw [if_pos hx] at h
      rcases List.mem_cons.mp h with h1 | h2
      · rw [h1]; exact hx
      · exact ih c h2
    · rw [if_neg hx] at h
      simp at h

/-- The first element surviving a `dropWhile` fails the predicate. -/
theorem head_dropWhile_false (p : Char → Bool) :
    ∀ (l : List Char) (c : Char) (t : List Char), l.dropWhile p = c :: t → p c = false := by
  intro l
  induction l with
  | nil => intro c t h; simp [List.dropWhile_nil] at h
  | cons x xs ih =>
    intro c t h
    rw [List.dropWhile_cons] at h
    by_cases hx : p x = true
    · rw [if_pos hx] at h
      exact ih c t h
    · rw [if_neg hx] at h
      injection h with h1 h2
      rw [← h1]
      exact Bool.not_eq_true _ |>.mp hx

/-- `takeWhile`/`dropWhile` split at the first failing element of an
append whose left part satisfies the predicate throughout. -/
theorem takeWhile_all_append (p : Char → Bool) :
    ∀ (a : List Char) (c : Char) (b : List Char), a.all p = true → p c = false →
      (a ++ c :: b).takeWhile p = a ∧ (a ++ c :: b).dropWhile p = c :: b := by
  intro a
  induction a with
  | nil =>
    intro c b _ hc
    constructor
    · simp [List.takeWhile_cons, hc]
    · simp [List.dropWhile_cons, hc]
  | cons x xs ih =>
    intro c b ha hc
    simp only [List.all_cons, Bool.and_eq_true] at ha
    have hr := ih c b ha.2 hc
    constructor
    · simp [List.takeWhile_cons, ha.1, hr.1]
    · simp [List.dropWhile_cons, ha.1, hr.2]

/-- A `[ \t]` character is not a newline. -/
theorem isHT_ne_nl (c : Char) (h : isHT c = true) : (c == '\n') = false := by
  cases hc : c == '\n' with
  | false => rfl
  | true =>
    obtain rfl : c = '\n' := eq_of_beq hc
    exact absurd h (by decide)

/-- A directive-name character is not a newline. -/
theorem isWordChar_ne_nl (c : Char) (h : isWordChar c = true) : (c == '\n') = false := by
  cases hc : c == '\n' with
  | false => rfl
  | true =>
    obtain rfl : c = '\n' := eq_of_beq hc
    exact absurd h (by decide)

/-- A list of the shape `P ++ M ++ H ++ N` with `M` nonempty and
newline-free, `H` newline-free and `N` empty or a single newline ends in
at most one newline. -/
theorem trailing_le_one (consumed P M H N : List Char)
    (hC : consumed = P ++ (M ++ (H ++ N)))
    (hM : M ≠ []) (hMl : ∀ c ∈ M, (c == '\n') = false)
    (hH : ∀ c ∈ H, (c == '\n') = false)
    (hN : N = [] ∨ N = ['\n']) :
    ((consumed.reverse.takeWhile (fun c => c == '\n')).length ≤ 1) := by
  have key : ∀ X : List Char,
      (H.reverse ++ (M.reverse ++ X)).takeWhile (fun c => c == '\n') = [] := by
    intro X
    cases hHr : H.reverse with
    | cons h0 hs =>
      have hmem : h0 ∈ H := by
        rw [← List.mem_reverse, hHr]
        exact List.mem_cons_self _ _
      simp [List.takeWhile_cons, hH h0 hmem]
    | nil =>
      cases hMr : M.reverse with
      | nil =>
        have : M = [] := by
          have := congrArg List.reverse hMr
          simpa using this
        exact absurd this hM
      | cons m0 ms =>
        have hmem : m0 ∈ M := by
          rw [← List.mem_reverse, hMr]
          exact List.mem_cons_self _ _
        simp [List.takeWhile_cons, hMl m0 hmem]
  rcases hN with rfl | rfl
  · rw [hC]
    have hrev : (P ++ (M ++ (H ++ ([] : List Char)))).reverse =
        H.reverse ++ (M.reverse ++ P.reverse) := by
      simp [List.reverse_append, List.append_assoc]
    rw [hrev, key]
    simp
  · rw [hC]
    have hrev : (P ++ (M ++ (H ++ ['\n']))).reverse =
        '\n' :: (H.reverse ++ (M.reverse ++ P.reverse)) := by
      simp [List.reverse_append, List.append_assoc]
    rw [hrev, List.takeWhile_cons]
    simp [key]

/-- The pattern tail `[ \t]*\n?` realised by `matchConfigFinish`
consumes some `[ \t]` characters and at most one newline. -/
theorem matchConfigFinish_spec (nm : List Char) (v : Option String) (after : List Char)
    (n : String) (v' : Option String) (rest : List Char) (nl : Bool)
    (h : matchConfigFinish nm v after = some (n, v', rest, nl)) :
    ∃ N : List Char, (N = [] ∨ N = ['\n']) ∧
      after = after.takeWhile isHT ++ (N ++ rest) := by
  simp only [matchConfigFinish] at h
  split at h
  · rename_i u heq
    simp only [Option.some.injEq, Prod.mk.injEq] at h
    obtain ⟨-, -, h3, -⟩ := h
    refine ⟨['\n'], Or.inr rfl, ?_⟩
    rw [← h3]
    have : (['\n'] : List Char) ++ u = '\n' :: u := rfl
    rw [this, ← heq, List.takeWhile_append_dropWhile]
  · rename_i t heq
    simp only [Option.some.injEq, Prod.mk.injEq] at h
    obtain ⟨-, -, h3, -⟩ := h
    refine ⟨[], Or.inl rfl, ?_⟩
    rw [← h3, List.nil_append, List.takeWhile_append_dropWhile]

/-- Any match position whose text splits as context, a nonempty
newline-free core, and a `matchConfigFinish` tail is consumed up to the
returned suffix with at most one trailing newline. -/
theorem consumed_of_finish (cs P M after rest : List Char) (nm : List Char)
    (v : Option String) (n : String) (v' : Option String) (nl : Bool)
    (hsplit : cs = P ++ (M ++ after))
    (hM : M ≠ []) (hMl : ∀ x ∈ M, (x == '\n') = false)
    (h : matchConfigFinish nm v after = some (n, v', rest, nl)) :
    ∃ consumed : List Char, cs = consumed ++ rest ∧
      ((consumed.reverse.takeWhile (fun c => c == '\n')).length ≤ 1) := by
  obtain ⟨N, hN, hafter⟩ := matchConfigFinish_spec nm v after n v' rest nl h
  refine ⟨P ++ (M ++ (after.takeWhile isHT ++ N)), ?_, ?_⟩
  · conv_lhs => rw [hsplit, hafter]
    simp [List.append_assoc]
  · exact trailing_le_one _ P M (after.takeWhile isHT) N rfl hM hMl
      (fun c hc => isHT_ne_nl c (mem_takeWhile_true isHT after c hc)) hN

/-- Boolean negation inversion. -/
theorem bnot_true_imp {b : Bool} (h : (!b) = true) : b = false := by
  cases b with
  | false => rfl
  | true => exact absurd h (by decide)

/-- Every successful match of `INFILE_CONFIG_PATTERN` consumes a prefix
of the scanned suffix that ends in at most one newline: the removal of a
match can never swallow a blank line following the directive. -/
theorem matchConfigAt_consumed (cs : List Char) (n : String) (v : Option String)
    (rest : List Char) (nl : Bool) (h : matchConfigAt cs = some (n, v, rest, nl)) :
    ∃ consumed : List Char, cs = consumed ++ rest ∧
      ((consumed.reverse.takeWhile (fun c => c == '\n')).length ≤ 1) := by
  simp only [matchConfigAt] at h
  split at h
  next s2 heq0 =>
    have hcs : cs = List.takeWhile isHT cs ++ ('#' :: s2) := by
      conv_lhs => rw [← List.takeWhile_append_dropWhile (p := isHT) (l := cs)]
      rw [heq0]
    split at h
    next heqL => exact Option.noConfusion h
    next s4 heqL =>
      have hs2 : s2 = List.takeWhile isPyWs s2 ++ ("mkdocs_gallery_".toList ++ s4) := by
        conv_lhs => rw [← List.takeWhile_append_dropWhile (p := isPyWs) (l := s2)]
        rw [dropLitPrefix_eq _ _ _ heqL]
      have hs4 : s4 = List.takeWhile isWordChar s4 ++ List.dropWhile isWordChar s4 :=
        (List.takeWhile_append_dropWhile _ _).symm
      split at h
      next hEmp => exact Option.noConfusion h
      next hEmp =>
        have hNMne : List.takeWhile isWordChar s4 ≠ [] := by
          intro hh
          exact hEmp (by rw [hh]; rfl)
        have hNMl : ∀ x ∈ List.takeWhile isWordChar s4, (x == '\n') = false :=
          fun x hx => isWordChar_ne_nl x (mem_takeWhile_true isWordChar s4 x hx)
        split at h
        next s7 heq5 =>
          have hS5 : List.dropWhile isWordChar s4 =
              List.takeWhile isPyWs (List.dropWhile isWordChar s4) ++ ('=' :: s7) := by
            conv_lhs => rw [← List.takeWhile_append_dropWhile
              (p := isPyWs) (l := List.dropWhile isWordChar s4)]
            rw [heq5]
          split at h
          next heq6 =>
            have hs7 : s7 = List.takeWhile isPyWs s7 := by
              have h' := List.takeWhile_append_dropWhile (p := isPyWs) (l := s7)
              rw [heq6, List.append_nil] at h'
              exact h'.symm
            split at h
            next heq7 =>
              -- group fails on all-whitespace value region: match falls back to
              -- the group-absent continuation after the name
              refine consumed_of_finish cs
                (List.takeWhile isHT cs ++ ('#' :: (List.takeWhile isPyWs s2 ++
                  "mkdocs_gallery_".toList)))
                (List.takeWhile isWordChar s4) (List.dropWhile isWordChar s4) rest
                _ _ n v nl ?_ hNMne hNMl h
              conv_lhs => rw [hcs, hs2, hs4]
              simp [List.append_assoc]
            next c pre heq7 =>
              have hW3rev : (List.takeWhile isPyWs s7).reverse =
                  List.takeWhile (fun c => c == '\n') (List.takeWhile isPyWs s7).reverse ++
                    (c :: pre) := by
                conv_lhs => rw [← List.takeWhile_append_dropWhile
                  (p := fun c => c == '\n') (l := (List.takeWhile isPyWs s7).reverse)]
                rw [heq7]
              have hW3 : List.takeWhile isPyWs s7 = pre.reverse ++ ([c] ++
                  (List.takeWhile (fun c => c == '\n')
                    (List.takeWhile isPyWs s7).reverse).reverse) := by
                have h' := congrArg List.reverse hW3rev
                rw [List.reverse_reverse] at h'
                refine h'.trans ?_
                simp [List.reverse_append, List.append_assoc]
              have hs7W : s7 = pre.reverse ++ ([c] ++
                  (List.takeWhile (fun c => c == '\n')
                    (List.takeWhile isPyWs s7).reverse).reverse) := hs7.trans hW3
              have hcnl : (c == '\n') = false :=
                head_dropWhile_false (fun x => x == '\n')
                  (List.takeWhile isPyWs s7).reverse c pre heq7
              refine consumed_of_finish cs
                (List.takeWhile isHT cs ++ ('#' :: (List.takeWhile isPyWs s2 ++
                  ("mkdocs_gallery_".toList ++ (List.takeWhile isWordChar s4 ++
                    (List.takeWhile isPyWs (List.dropWhile isWordChar s4) ++
                      ('=' :: pre.reverse)))))))
                [c]
                (List.takeWhile (fun c => c == '\n')
                  (List.takeWhile isPyWs s7).reverse).reverse rest
                _ _ n v nl ?_ (by simp) ?_ h
              · conv_lhs => rw [hcs, hs2, hs4, hS5, hs7W]
                simp [List.append_assoc]
              · intro x hx
                rw [List.mem_singleton] at hx
                rw [hx]
                exact hcnl
          next r heq6 =>
            have hR : List.dropWhile isPyWs s7 ≠ [] := heq6
            cases hRc : List.dropWhile isPyWs s7 with
            | nil => exact absurd hRc hR
            | cons c' cs' =>
              have hc'ws : isPyWs c' = false := head_dropWhile_false _ _ _ _ hRc
              have hc'nl : (c' == '\n') = false := by
                cases hcc : c' == '\n' with
                | false => rfl
                | true =>
                  obtain rfl : c' = '\n' := eq_of_beq hcc
                  exact absurd hc'ws (by decide)
              have hVcons : List.takeWhile (fun c => !(c == '\n'))
                  (List.dropWhile isPyWs s7) =
                  c' :: List.takeWhile (fun c => !(c == '\n')) cs' := by
                rw [hRc, List.takeWhile_cons]
                simp [hc'nl]
              have hVne : List.takeWhile (fun c => !(c == '\n'))
                  (List.dropWhile isPyWs s7) ≠ [] := by
                rw [hVcons]
                simp
              have hVl : ∀ x ∈ List.takeWhile (fun c => !(c == '\n'))
                  (List.dropWhile isPyWs s7), (x == '\n') = false := by
                intro x hx
                exact bnot_true_imp (mem_takeWhile_true _ _ x hx)
              have hRsplit : List.dropWhile isPyWs s7 =
                  List.takeWhile (fun c => !(c == '\n')) (List.dropWhile isPyWs s7) ++
                    List.dropWhile (fun c => !(c == '\n')) (List.dropWhile isPyWs s7) :=
                (List.takeWhile_append_dropWhile _ _).symm
              have hs7' : s7 = List.takeWhile isPyWs s7 ++ List.dropWhile isPyWs s7 :=
                (List.takeWhile_append_dropWhile _ _).symm
              refine consumed_of_finish cs
                (List.takeWhile isHT cs ++ ('#' :: (List.takeWhile isPyWs s2 ++
                  ("mkdocs_gallery_".toList ++ (List.takeWhile isWordChar s4 ++
                    (List.takeWhile isPyWs (List.dropWhile isWordChar s4) ++
                      ('=' :: List.takeWhile isPyWs s7)))))))
                (List.takeWhile (fun c => !(c == '\n')) (List.dropWhile isPyWs s7))
                (List.dropWhile (fun c => !(c == '\n')) (List.dropWhile isPyWs s7)) rest
                _ _ n v nl ?_ hVne hVl h
              conv_lhs => rw [hcs, hs2, hs4, hS5, hs7', hRsplit]
              simp [List.append_assoc]
        next heq5 =>
          refine consumed_of_finish cs
            (List.takeWhile isHT cs ++ ('#' :: (List.takeWhile isPyWs s2 ++
              "mkdocs_gallery_".toList)))
            (List.takeWhile isWordChar s4) (List.dropWhile isWordChar s4) rest
            _ _ n v nl ?_ hNMne hNMl h
          conv_lhs => rw [hcs, hs2, hs4]
          simp [List.append_assoc]
  next heq0 => exact Option.noConfusion h

/-- A line whose first character after the optional `[ \t]*` indent is
not `#` starts no match of the directive pattern. -/
theorem matchConfigAt_not_hash (cs : List Char)
    (h : ∀ t : List Char, cs.dropWhile isHT ≠ '#' :: t) : matchConfigAt cs = none := by
  simp only [matchConfigAt]

/-- A blank line (whitespace only, then the line break) starts no match
of the directive pattern, so stripping leaves blank lines in place. -/
theorem matchConfigAt_blank_line (sp t : List Char) (hsp : sp.all isHT = true) :
    matchConfigAt (sp ++ '\n' :: t) = none := by
  apply matchConfigAt_not_hash
  intro u hu
  rw [(takeWhile_all_append isHT sp '\n' t hsp (by decide)).2] at hu
  injection hu with h1 h2
  exact absurd h1 (by decide)

/-- A value-bearing directive `# mkdocs_gallery_<name> = <value>` on its
own line matches exactly through its terminating newline: the suffix
after the match is precisely the text of the following lines, so a blank
line after the directive survives stripping. -/
theorem matchConfigAt_own_line (nh : Char) (nt : List Char) (vh : Char) (vt : List Char)
    (t : List Char) (hn : (nh :: nt).all isWordChar = true) (hv0 : isPyWs vh = false)
    (hv : (vh :: vt).all (fun c => !(c == '\n')) = true) :
    matchConfigAt ('#' :: ' ' :: ("mkdocs_gallery_".toList ++
        ((nh :: nt) ++ (' ' :: '=' :: ' ' :: ((vh :: vt) ++ '\n' :: t))))) =
      some ((nh :: nt).asString, some ((vh :: vt).asString), t, true) := by
  have e1 := takeWhile_all_append isWordChar (nh :: nt) ' '
    ('=' :: ' ' :: ((vh :: vt) ++ '\n' :: t)) hn (by decide)
  have e2 := takeWhile_all_append (fun c => !(c == '\n')) (vh :: vt) '\n' t hv (by decide)
  simp only [List.cons_append] at e1 e2
  have eA : List.dropWhile isPyWs (' ' :: ("mkdocs_gallery_".toList ++
      nh :: (nt ++ ' ' :: '=' :: ' ' :: vh :: (vt ++ '\n' :: t)))) =
      "mkdocs_gallery_".toList ++ (nh :: (nt ++ ' ' :: '=' :: ' ' :: vh :: (vt ++ '\n' :: t))) :=
    rfl
  have eB : List.dropWhile isPyWs (' ' :: '=' :: ' ' :: vh :: (vt ++ '\n' :: t)) =
      '=' :: ' ' :: vh :: (vt ++ '\n' :: t) := rfl
  have eC : List.dropWhile isPyWs (' ' :: vh :: (vt ++ '\n' :: t)) =
      vh :: (vt ++ '\n' :: t) := by
    rw [List.dropWhile_cons, if_pos (show isPyWs ' ' = true from rfl),
      List.dropWhile_cons, if_neg (by rw [hv0]; exact Bool.false_ne_true)]
  have eD : List.dropWhile isHT ('\n' :: t) = '\n' :: t := by
    rw [List.dropWhile_cons, if_neg (by decide)]
  simp only [matchConfigAt, matchConfigFinish, List.cons_append]
  rw [show List.dropWhile isHT ('#' :: ' ' :: ("mkdocs_gallery_".toList ++
      nh :: (nt ++ ' ' :: '=' :: ' ' :: vh :: (vt ++ '\n' :: t)))) =
    '#' :: ' ' :: ("mkdocs_gallery_".toList ++
      nh :: (nt ++ ' ' :: '=' :: ' ' :: vh :: (vt ++ '\n' :: t))) from rfl]
  simp only [eA]
  rw [show ("mkdocs_gallery_".toList ++ (nh :: (nt ++ ' ' :: '=' :: ' ' :: vh :: (vt ++ '\n' :: t)))) = "mkdocs_gallery_".toList ++ (nh :: (nt ++ ' ' :: '=' :: ' ' :: vh :: (vt ++ '\n' :: t))) from rfl, dropLitPrefix_self_append]
  simp [e1.1, e1.2, e2.1, e2.2, eB, eC, eD]

/-- C1: for every file with a valid leading docstring (the successfully
parsed path of `_get_docstring_and_rest`), the first element of the block
list returned by `split_code_and_text_blocks` is a text block with line
number 1 whose content equals the extracted docstring. -/
theorem C1_first_block_is_docstring {α : Type} (d : String → Option α)
    (rawS cleaned : String) (tokenEndRow : Option Nat) (content : String) :
    ((split_code_and_text_blocks d (getDocstringAndRest_parsed rawS cleaned tokenEndRow content)).2).head? =
      some ⟨"text", (getDocstringAndRest_parsed rawS cleaned tokenEndRow content).docstring, 1⟩ :=
  rfl

/-- C2: the starting line numbers of the blocks returned by
`split_code_and_text_blocks` are non-decreasing in sequence order; the
hypothesis `1 ≤ dr.lineno` holds for both constructors of
`DocstringAndRest` (the parse-failure path returns 1, the parsed path
returns a token end row plus 1). -/
theorem C2_lineno_nondecreasing {α : Type} (d : String → Option α)
    (dr : DocstringAndRest) (h : 1 ≤ dr.lineno) :
    List.Chain' blkLe ((split_code_and_text_blocks d dr).2) := by
  refine (buildBlocks_chain (scanHeaders dr.rest).1 (scanHeaders dr.rest).2 dr.lineno).cons' ?_
  intro y hy
  have hm := buildBlocks_le _ _ _ y (List.mem_of_mem_head? hy)
  show 1 ≤ y.lineno
  omega

/-- Witness for C2 at a concrete unparsable file. -/
theorem C2_lineno_nondecreasing_witness :
    List.Chain' blkLe ((split_code_and_text_blocks (fun _ => (none : Option Nat))
      (getDocstringAndRest_parseFailure ("x = 1\n# %%\n# doc\ny = 2\n"))).2) :=
  C2_lineno_nondecreasing _ _ (by decide)

/-- C3 counterexample: a file whose docstring literal is whitespace-only
(for instance the file consisting of the line `\"\"\"   \"\"\"`, for which
`ast.get_docstring` yields the empty string) makes
`split_code_and_text_blocks` emit a text block with empty content: the
docstring block at line 1 is appended without any emptiness guard. -/
theorem C3_counterexample :
    (split_code_and_text_blocks (fun _ => (none : Option Nat))
        (getDocstringAndRest_parsed ("   ") ("") (some 1) ("\"\"\"   \"\"\""))).2 =
      [⟨"text", "", 1⟩] ∧ pyTruthy ("") = false := by
  constructor
  · rfl
  · rfl

/-- C3 as amended: every block other than the leading docstring block has
content that is not empty and not whitespace-only; the docstring block
itself is emitted without that guard and can be whitespace-only. -/
theorem C3_tail_blocks_not_whitespace {α : Type} (d : String → Option α)
    (dr : DocstringAndRest) (b : Block)
    (h : b ∈ ((split_code_and_text_blocks d dr).2).tail) :
    pyTruthy b.content = true :=
  buildBlocks_truthy (scanHeaders dr.rest).1 (scanHeaders dr.rest).2 dr.lineno b h

/-- Witness for the amended C3 at a concrete file. -/
theorem C3_tail_blocks_not_whitespace_witness :
    pyTruthy (Block.mk "code" ("x = 1") 1).content = true :=
  C3_tail_blocks_not_whitespace (fun _ => (none : Option Nat))
    (getDocstringAndRest_parseFailure ("x = 1")) _ (by decide)

/-- C4 counterexample: a syntactically invalid file whose raw content is
non-empty but contains a section-delimiter line is NOT split into exactly
`[(text, placeholder, 1), (code, raw content, 1)]`: the block splitter
still applies to the raw content, here producing a narrative text block
and a code block on separate lines. -/
theorem C4_counterexample :
    (split_code_and_text_blocks (fun _ => (none : Option Nat))
        (getDocstringAndRest_parseFailure ("# %%\n# hi\n1/\n"))).2 =
      [⟨"text", SYNTAX_ERROR_DOCSTRING, 1⟩, ⟨"text", "hi\n", 2⟩, ⟨"code", "1/\n", 3⟩] ∧
    pyTruthy ("# %%\n# hi\n1/\n") = true ∧
    (split_code_and_text_blocks (fun _ => (none : Option Nat))
        (getDocstringAndRest_parseFailure ("# %%\n# hi\n1/\n"))).2 ≠
      [⟨"text", SYNTAX_ERROR_DOCSTRING, 1⟩, ⟨"code", "# %%\n# hi\n1/\n", 1⟩] := by
  refine ⟨rfl, rfl, ?_⟩
  decide

/-- C4 as amended: on a parse failure the returned docstring is always
the fixed placeholder, and when the raw content contains a
non-whitespace character and no match of the section-delimiter pattern,
the block list is exactly
`[(text, placeholder, 1), (code, raw content, 1)]`. -/
theorem C4_unparsable_placeholder_blocks {α : Type} (d : String → Option α) (c : String)
    (h1 : pyTruthy c = true) (h2 : scanHeaders c = ([], c)) :
    (getDocstringAndRest_parseFailure c).docstring = SYNTAX_ERROR_DOCSTRING ∧
    (split_code_and_text_blocks d (getDocstringAndRest_parseFailure c)).2 =
      [⟨"text", SYNTAX_ERROR_DOCSTRING, 1⟩, ⟨"code", c, 1⟩] := by
  refine ⟨rfl, ?_⟩
  show (⟨"text", SYNTAX_ERROR_DOCSTRING, 1⟩ : Block) ::
      buildBlocks (scanHeaders c).1 (scanHeaders c).2 1 = _
  rw [h2]
  show (⟨"text", SYNTAX_ERROR_DOCSTRING, 1⟩ : Block) :: buildBlocks [] c 1 = _
  simp only [buildBlocks, h1, if_true]

/-- Witness for the amended C4 at a concrete delimiter-free file. -/
theorem C4_unparsable_placeholder_blocks_witness :
    (getDocstringAndRest_parseFailure ("x = 1")).docstring = SYNTAX_ERROR_DOCSTRING ∧
    (split_code_and_text_blocks (fun _ => (none : Option Nat))
        (getDocstringAndRest_parseFailure ("x = 1"))).2 =
      [⟨"text", SYNTAX_ERROR_DOCSTRING, 1⟩, ⟨"code", "x = 1", 1⟩] :=
  C4_unparsable_placeholder_blocks _ _ (by decide) (by decide)

/-- C5 counterexample: stripping config comments can reveal a new
directive at a line start (the pattern is anchored at `^`, so a match can
end mid-line and the removal promotes the remainder of the line to a
line start), so re-scanning the stripped text does not always yield an
empty config mapping. -/
theorem C5_counterexample :
    (extract_file_config decodeNatLit
        (remove_config_comments ("# mkdocs_gallery_a # mkdocs_gallery_b = 1\n"))).1 =
      [("b", 1)] ∧
    (extract_file_config decodeNatLit
        (remove_config_comments ("# mkdocs_gallery_a # mkdocs_gallery_b = 1\n"))).1 ≠ [] := by
  refine ⟨rfl, ?_⟩
  decide

/-- C5 as amended: when the stripped text contains no further match of
the directive pattern, re-scanning it yields an empty config mapping;
the counterexample shows this residual-match condition can fail. -/
theorem C5_strip_then_rescan_empty {α : Type} (d : String → Option α) (t : String)
    (h : findConfigDirectives (remove_config_comments t) = []) :
    (extract_file_config d (remove_config_comments t)).1 = [] := by
  show (extractConfigGo d (findConfigDirectives (remove_config_comments t)) [] []).1 = []
  rw [h]
  rfl

/-- Witness for the amended C5 at a concrete block text. -/
theorem C5_strip_then_rescan_empty_witness :
    (extract_file_config decodeNatLit
        (remove_config_comments ("# mkdocs_gallery_a = 1\n"))).1 = [] :=
  C5_strip_then_rescan_empty decodeNatLit _ (by decide)

/-- C6 counterexample: `remove_config_comments` is not idempotent: the
`\s*` parts of the pattern match newlines, so removing a directive line
can juxtapose a previous lone `#` line with following text into a fresh
match that only a second application removes. -/
theorem C6_counterexample :
    remove_config_comments ("#\n# mkdocs_gallery_a = 1\nmkdocs_gallery_b = 2\n") =
      "#\nmkdocs_gallery_b = 2\n" ∧
    remove_config_comments (remove_config_comments
        ("#\n# mkdocs_gallery_a = 1\nmkdocs_gallery_b = 2\n")) = "" ∧
    remove_config_comments (remove_config_comments
        ("#\n# mkdocs_gallery_a = 1\nmkdocs_gallery_b = 2\n")) ≠
      remove_config_comments ("#\n# mkdocs_gallery_a = 1\nmkdocs_gallery_b = 2\n") := by
  refine ⟨rfl, rfl, ?_⟩
  decide

/-- C6 as amended: `remove_config_comments` is idempotent on every text
whose stripped result contains no further match of the directive
pattern; the counterexample shows the general claim fails without that
condition. -/
theorem C6_idempotent_without_residual (t : String)
    (h : findConfigDirectives (remove_config_comments t) = []) :
    remove_config_comments (remove_config_comments t) =
      remove_config_comments t := by
  show ((configWalk (remove_config_comments t).toList.length
      (remove_config_comments t).toList true).2).asString = _
  rw [configWalk_matches_nil _ _ _ h]
  exact toList_asString_self _

/-- Witness for the amended C6 at a concrete block text. -/
theorem C6_idempotent_without_residual_witness :
    remove_config_comments (remove_config_comments ("y = 0\n# mkdocs_gallery_a = 1\nx\n")) =
      remove_config_comments ("y = 0\n# mkdocs_gallery_a = 1\nx\n") :=
  C6_idempotent_without_residual _ (by decide)

/-- C7 counterexample: a match of the directive pattern can span two
source lines (`\s*` matches the newline between the name and the `=`),
so the `= 1` line is consumed by the same match as the `#` line above
it, refuting the single-line-span claim. -/
theorem C7_counterexample :
    findConfigDirectives ("# mkdocs_gallery_a\n= 1\nx\n") = [("a", some "1")] ∧
    remove_config_comments ("# mkdocs_gallery_a\n= 1\nx\n") = "x\n" ∧
    remove_config_comments ("# mkdocs_gallery_a\n= 1\nx\n") ≠ "= 1\nx\n" := by
  refine ⟨rfl, rfl, ?_⟩
  decide

/-- C7 as amended: a match of the directive pattern may span multiple
source lines, but every match consumes at most one trailing newline (the
consumed text never ends in two newlines); a blank line never starts a
match; a value-bearing directive `# mkdocs_gallery_<name> = <value>` on
its own line matches exactly through its terminating newline, leaving a
following blank line intact; hence on the spec's example, stripping
preserves the blank lines around the directive un-collapsed and
extraction yields the directive's value. -/
theorem C7_match_trailing_newline_blank_lines :
    (∀ (cs : List Char) (n : String) (v : Option String) (rest : List Char) (nl : Bool),
        matchConfigAt cs = some (n, v, rest, nl) →
        ∃ consumed : List Char, cs = consumed ++ rest ∧
          ((consumed.reverse.takeWhile (fun c => c == '\n')).length ≤ 1)) ∧
    (∀ (nh : Char) (nt : List Char) (vh : Char) (vt : List Char) (t : List Char),
        (nh :: nt).all isWordChar = true → isPyWs vh = false →
        (vh :: vt).all (fun c => !(c == '\n')) = true →
        matchConfigAt ('#' :: ' ' :: ("mkdocs_gallery_".toList ++
            ((nh :: nt) ++ (' ' :: '=' :: ' ' :: ((vh :: vt) ++ '\n' :: t))))) =
          some ((nh :: nt).asString, some ((vh :: vt).asString), t, true)) ∧
    (∀ (sp t : List Char), sp.all isHT = true →
        matchConfigAt (sp ++ '\n' :: t) = none) ∧
    remove_config_comments ("a = 1\n\n# mkdocs_gallery_thumbnail_number = 2\n\nb = 2\n") =
      "a = 1\n\n\nb = 2\n" ∧
    (extract_file_config decodeNatLit
        ("a = 1\n\n# mkdocs_gallery_thumbnail_number = 2\n\nb = 2\n")).1 =
      [("thumbnail_number", 2)] :=
  ⟨matchConfigAt_consumed, matchConfigAt_own_line, matchConfigAt_blank_line, rfl, rfl⟩

/-- Witness for the amended C7, exercising each universal part at a
concrete input. -/
theorem C7_match_trailing_newline_blank_lines_witness :
    (∃ consumed : List Char,
        String.toList ("# mkdocs_gallery_a = 1\n") = consumed ++ ([] : List Char) ∧
        ((consumed.reverse.takeWhile (fun c => c == '\n')).length ≤ 1)) ∧
    matchConfigAt ('#' :: ' ' :: ("mkdocs_gallery_".toList ++
        (('a' :: []) ++ (' ' :: '=' :: ' ' :: (('2' :: []) ++ '\n' :: ('\n' :: 'b' :: [])))))) =
      some (('a' :: ([] : List Char)).asString, some (('2' :: ([] : List Char)).asString),
        ('\n' :: 'b' :: []), true) ∧
    matchConfigAt ((' ' :: []) ++ '\n' :: ('x' :: [])) = none :=
  ⟨C7_match_trailing_newline_blank_lines.1
      (String.toList ("# mkdocs_gallery_a = 1\n")) "a" (some ("1")) [] true (by decide),
    C7_match_trailing_newline_blank_lines.2.1 'a' [] '2' [] ('\n' :: 'b' :: [])
      (by decide) (by decide) (by decide),
    C7_match_trailing_newline_blank_lines.2.2.1 (' ' :: []) ('x' :: []) (by decide)⟩

/-- C8: when a directive's value fails to decode, `extract_file_config`
appends a warning naming the directive and its value, stores nothing for
it, and continues with the remaining matches (the function is total, so
nothing is raised); the first conjunct ties the loop to the scan of the
input text. -/
theorem C8_decode_failure_warns_and_skips {α : Type} (d : String → Option α)
    (content : String) (n v : String) (ms : List (String × Option String))
    (conf : List (String × α)) (warns : List (String × String)) (h : d v = none) :
    extract_file_config d content = extractConfigGo d (findConfigDirectives content) [] [] ∧
    extractConfigGo d ((n, some v) :: ms) conf warns =
      extractConfigGo d ms conf (warns ++ [(n, v)]) :=
  ⟨rfl, by simp only [extractConfigGo, h]⟩

/-- Witness for C8 with the concrete decoder failing on a non-literal. -/
theorem C8_decode_failure_warns_and_skips_witness :
    extract_file_config decodeNatLit ("") =
      extractConfigGo decodeNatLit (findConfigDirectives ("")) [] [] ∧
    extractConfigGo decodeNatLit [("foo", some "bad")] [] [] =
      extractConfigGo decodeNatLit [] [] ([] ++ [("foo", "bad")]) :=
  C8_decode_failure_warns_and_skips decodeNatLit ("") "foo" "bad" [] [] [] (by decide)

/-- C9: a directive name that only ever occurs in flag-only matches (no
`= value` part) gets no entry in the config mapping returned by
`extract_file_config`: every stored entry originates from a match
carrying a value. -/
theorem C9_flag_only_no_entry {α : Type} (d : String → Option α) (content : String)
    (n : String) (h : ∀ v : String, (n, some v) ∉ findConfigDirectives content)
    (x : α) : (n, x) ∉ (extract_file_config d content).1 := by
  intro hx
  rcases extractConfigGo_mem d (findConfigDirectives content) [] [] n x hx with h1 | ⟨v, hv⟩
  · simp at h1
  · exact h v hv

/-- Witness for C9 at the concrete flag-only directive `skip`. -/
theorem C9_flag_only_no_entry_witness :
    ("skip", (0 : Nat)) ∉ (extract_file_config decodeNatLit ("# mkdocs_gallery_skip\n")).1 :=
  C9_flag_only_no_entry decodeNatLit ("# mkdocs_gallery_skip\n") "skip"
    (fun v hv => by
      rw [show findConfigDirectives ("# mkdocs_gallery_skip\n") = [("skip", none)] from
        by decide] at hv
      simp at hv) 0

/-- C10: when the raw docstring literal begins with a newline, the
docstring returned by the parsed path of `_get_docstring_and_rest`
begins with a newline, re-prepended even though the extraction utility
strips it. -/
theorem C10_raw_leading_newline (rawS cleaned : String) (tokenEndRow : Option Nat)
    (content : String) (h : rawS.toList.head? = some '\n') :
    ((getDocstringAndRest_parsed rawS cleaned tokenEndRow content).docstring).toList.head? =
      some '\n' := by
  obtain ⟨rl⟩ := rawS
  cases rl with
  | nil => simp [String.toList] at h
  | cons c tl =>
    have hc : c = '\n' := by simpa [String.toList] using h
    subst hc
    show (("\n" ++ cleaned).data).head? = some '\n'
    rw [String.data_append]
    rfl

/-- Witness for C10 at a concrete raw literal. -/
theorem C10_raw_leading_newline_witness :
    ((getDocstringAndRest_parsed ("\nTitle") ("Title") (some 3) ("x")).docstring).toList.head? =
      some '\n' :=
  C10_raw_leading_newline ("\nTitle") ("Title") (some 3) ("x") (by decide)

end MkdocsGallery
